import Mathlib

/-
  Verification development for the CollegesChat website generator
  (single source file `main.py`).

  The Python source is shallowly embedded: dataclasses become structures,
  in-place mutation becomes explicit state passing, Python `dict`s become
  association lists with unique keys (preserving insertion order), raising
  code paths return `Option` (`none` models an uncaught exception aborting
  the run).  External collaborators (the `slugify` library and `zhconv`
  script conversion) are passed as opaque function parameters.
-/

/-- Embeds the dataclass `IndexedContent` (a source-row id and a text payload). -/
structure IndexedContent where
  answer_id : Int
  content : String
deriving DecidableEq

/-- Embeds the dataclass `AnswerGroup`: the ordered answers of one question. -/
structure AnswerGroup where
  answers : List IndexedContent
deriving DecidableEq

/-- Embeds `AnswerGroup.add_answer`: `self.answers.append(ans)`. -/
def AnswerGroup.add_answer (g : AnswerGroup) (ans : IndexedContent) : AnswerGroup :=
  { answers := g.answers ++ [ans] }

/-- Embeds `AnswerGroup.extend`: `self.answers.extend(other.answers)`. -/
def AnswerGroup.extend (g other : AnswerGroup) : AnswerGroup :=
  { answers := g.answers ++ other.answers }

/-- Embeds the module constant `QUESTIONNAIRE` (25 fixed questions). -/
def QUESTIONNAIRE : List String := [
  "宿舍是上床下桌吗？",
  "教室和宿舍有没有空调？",
  "有独立卫浴吗？没有独立浴室的话，澡堂离宿舍多远？",
  "有早自习、晚自习吗？",
  "有晨跑吗？",
  "每学期跑步打卡的要求是多少公里，可以骑车吗？",
  "寒暑假放多久，每年小学期有多长？",
  "学校允许点外卖吗，取外卖的地方离宿舍楼多远？",
  "学校交通便利吗，有地铁吗，在市区吗，不在的话进城要多久？",
  "宿舍楼有洗衣机吗？",
  "校园网怎么样？",
  "每天断电断网吗，几点开始断？",
  "食堂价格贵吗，会吃出异物吗？",
  "洗澡热水供应时间？",
  "校园内可以骑电瓶车吗，电池在哪能充电？",
  "宿舍限电情况？",
  "通宵自习有去处吗？",
  "大一能带电脑吗？",
  "学校里面用什么卡，饭堂怎样消费？",
  "学校会给学生发银行卡吗？",
  "学校的超市怎么样？",
  "学校的收发快递政策怎么样？",
  "学校里面的共享单车数目与种类如何？",
  "现阶段学校的门禁情况如何？",
  "宿舍晚上查寝吗，封寝吗，晚归能回去吗？"]

/-- Embeds the dataclass `University`: one `AnswerGroup` per question, plus
the free-text supplementary answers and the attribution (`credits`) lines. -/
structure University where
  answers : List AnswerGroup
  additional_answers : List IndexedContent
  credits : List IndexedContent
deriving DecidableEq

/-- Embeds the dataclass defaults of `University`
(`[AnswerGroup() for _ in range(len(QUESTIONNAIRE))]`, `[]`, `[]`),
the state `defaultdict(University)` creates on first access to a new name. -/
def University.new : University :=
  { answers := List.replicate QUESTIONNAIRE.length { answers := [] }
    additional_answers := []
    credits := [] }

/-- Embeds `University.add_answer`: `self.answers[index].add_answer(answer)`.
Python raises `IndexError` when `index` is out of range, modeled as `none`. -/
def University.add_answer (u : University) (index : Nat) (answer : IndexedContent) :
    Option University :=
  if h : index < u.answers.length then
    some { u with answers := u.answers.set index ((u.answers.get ⟨index, h⟩).add_answer answer) }
  else none

/-- Embeds `University.add_additional_answer`: appends only when
`answer.content` is truthy, i.e. a non-empty string. -/
def University.add_additional_answer (u : University) (answer : IndexedContent) : University :=
  if answer.content = "" then u
  else { u with additional_answers := u.additional_answers ++ [answer] }

/-- Embeds `University.add_credit`: `self.credits.append(credit)`. -/
def University.add_credit (u : University) (credit : IndexedContent) : University :=
  { u with credits := u.credits ++ [credit] }

/-- Embeds `University.combine_from`.  `zip(..., strict=True)` raises
`ValueError` on a length mismatch (aborting the run), modeled as `none`;
otherwise each answer bin, the supplementary answers and the credits of
`other` are appended after this aggregate's own content. -/
def University.combine_from (u other : University) : Option University :=
  if u.answers.length = other.answers.length then
    some { answers := List.zipWith AnswerGroup.extend u.answers other.answers
           additional_answers := u.additional_answers ++ other.additional_answers
           credits := u.credits ++ other.credits }
  else none

/-- Reads answer bin `i` of an aggregate (the empty bin out of range). -/
def binAt (u : University) (i : Nat) : List IndexedContent :=
  (u.answers.getD i { answers := [] }).answers

/-- Decimal digit character, codepoint `48 + d`. -/
def digitChar (d : Nat) : Char := Char.ofNat (48 + d)

/-- Big-endian decimal digit characters of a natural number, the digits
produced by Python string formatting of an `int`. -/
def natChars (n : Nat) : List Char :=
  if n < 10 then [digitChar n]
  else natChars (n / 10) ++ [digitChar (n % 10)]
termination_by n
decreasing_by
  exact Nat.div_lt_self (by omega) (by omega)

/-- Value of a decimal digit string, used to invert `natChars`. -/
def charsVal (l : List Char) : Nat :=
  l.foldl (fun acc c => acc * 10 + (c.toNat - 48)) 0

/-- Decimal rendering of a natural number (Python `str`/f-string of an `int`). -/
def natToString (n : Nat) : String := String.mk (natChars n)

/-- Candidate slug number `idx` of the `FilenameMap.__getitem__` while loop:
the base slug for `idx = 1`, and `base-idx` afterwards. -/
def slugCandidate (base : String) (idx : Nat) : String :=
  if idx = 1 then base else base ++ "-" ++ natToString idx

/-- Embeds the `while slug in self.used` probe loop of
`FilenameMap.__getitem__`, with explicit fuel.  The source loop always
terminates because the candidates are pairwise distinct and `used` is
finite; `freshSlug` supplies fuel that provably suffices. -/
def freshAux (base : String) (used : List String) : Nat → Nat → String
  | 0, idx => slugCandidate base idx
  | fuel + 1, idx =>
    if slugCandidate base idx ∈ used then freshAux base used fuel (idx + 1)
    else slugCandidate base idx

/-- First candidate slug not yet in `used` (`__getitem__`'s probe loop,
starting at candidate index 1, i.e. the bare base slug). -/
def freshSlug (base : String) (used : List String) : String :=
  freshAux base used (used.length + 1) 1

/-- Association-list lookup, the embedding of Python `dict` key access
(`d[k]` and `d.get(k)`); keys of an embedded dict are unique. -/
def alookup {β : Type} (k : String) : List (String × β) → Option β
  | [] => none
  | p :: rest => if p.1 = k then some p.2 else alookup k rest

/-- Keys of an embedded dict, in insertion order. -/
def dictKeys {β : Type} (l : List (String × β)) : List String := l.map Prod.fst

/-- Embeds the class `FilenameMap`: the memo `mapping` (name to slug) and
the `used` slug set (modeled as the list of issued slugs). -/
structure FilenameMap where
  mapping : List (String × String)
  used : List String
deriving DecidableEq

/-- Embeds `FilenameMap()`: both containers start empty. -/
def FilenameMap.empty : FilenameMap := { mapping := [], used := [] }

/-- Embeds `FILENAME_PREPROCESS.sub('', name)`: removes every occurrence
of the characters `/ > | : &` before slugification. -/
def stripFilenameChars (s : String) : String :=
  String.mk (s.toList.filter (fun c => decide (c ∉ ['/', '>', '|', ':', '&'])))

/-- Embeds `FilenameMap.__getitem__`.  The external `slugify` collaborator
is the opaque parameter `f`; every claim proved about the map holds for an
arbitrary `f`.  A cached name returns its memoized slug unchanged;
otherwise the first free candidate is recorded and returned. -/
def FilenameMap.getItem (f : String → String) (m : FilenameMap) (name : String) :
    String × FilenameMap :=
  match alookup name m.mapping with
  | some s => (s, m)
  | none =>
    let base := f (stripFilenameChars name)
    let slug := freshSlug base m.used
    (slug, { mapping := m.mapping ++ [(name, slug)], used := slug :: m.used })

/-- Runs a sequence of `FilenameMap.__getitem__` lookups on one instance
(the per-partition use in `write_markdown_for_universities`). -/
def runLookups (f : String → String) (m : FilenameMap) (names : List String) : FilenameMap :=
  names.foldl (fun m2 n => (FilenameMap.getItem f m2 n).2) m

/-- Invariant of a `FilenameMap`: unique memo keys, every memoized slug is
in `used`, and distinct names hold distinct slugs. -/
def FMInv (m : FilenameMap) : Prop :=
  (dictKeys m.mapping).Nodup ∧
  (∀ p ∈ m.mapping, p.2 ∈ m.used) ∧
  ∀ p ∈ m.mapping, ∀ q ∈ m.mapping, p.1 ≠ q.1 → p.2 ≠ q.2

/-- Embeds `os.cpu_count() or 1`: `cpu_count` yields `None` when the core
count cannot be determined, and Python `or` replaces a falsy value
(`None` or `0`) by `1`. -/
def cpu_count_or_one (c : Option Nat) : Nat :=
  match c with
  | none => 1
  | some n => if n = 0 then 1 else n

/-- Embeds `max_workers = min(32, max(1, (os.cpu_count() or 1) * 4))`. -/
def max_workers (c : Option Nat) : Nat :=
  min 32 (max 1 (cpu_count_or_one c * 4))

/-- Embeds `del d[k]` and `d.pop(k, None)`: removes the (unique) entry
with key `k`; a missing key leaves the dict unchanged and never raises. -/
def removeKey {β : Type} (k : String) : List (String × β) → List (String × β)
  | [] => []
  | p :: rest => if p.1 = k then rest else p :: removeKey k rest

/-- Models the in-place mutation of the aggregate object stored at an
existing dict key: the entry keeps its position, its value changes. -/
def setKey {β : Type} (k : String) (v : β) : List (String × β) → List (String × β)
  | [] => []
  | p :: rest => if p.1 = k then (k, v) :: rest else p :: setKey k v rest

/-- Registry from normalized university name to aggregate, the embedding
of the `universities` dict (insertion-ordered, unique keys). -/
abbrev Registry := List (String × University)

/-- Embeds the inner alias loop of `process_universities` for one line:
`primary` is bound once to the aggregate object; each alias present in the
registry is merged into it (`combine_from`) and its key deleted.  When an
alias equals the primary key, `universities[alias]` denotes the very
object bound to `primary`, hence the self-merge case. -/
def mergeAliases (primaryName : String) :
    University → Registry → List String → Option (University × Registry)
  | p, reg, [] => some (p, reg)
  | p, reg, a :: rest =>
    match alookup a reg with
    | none => mergeAliases primaryName p reg rest
    | some u =>
      match p.combine_from (if a = primaryName then p else u) with
      | none => none
      | some p2 => mergeAliases primaryName p2 (removeKey a reg) rest

/-- Embeds one line of the alias file inside `process_universities`:
a missing primary prints a warning and skips the line; otherwise the
aliases are folded into the primary object (which the registry entry for
the primary key still holds afterwards). -/
def process_alias_line (reg : Registry) (name : String) (aliases : List String) :
    Option (Registry × List String) :=
  match alookup name reg with
  | none => some (reg, ["[warn] alias primary missing: " ++ name])
  | some p =>
    match mergeAliases name p reg aliases with
    | none => none
    | some (p2, reg2) => some (setKey name p2 reg2, [])

/-- Embeds the loop over the parsed alias file. -/
def process_alias_lines (reg : Registry) :
    List (String × List String) → Option (Registry × List String)
  | [] => some (reg, [])
  | line :: rest =>
    match process_alias_line reg line.1 line.2 with
    | none => none
    | some (r1, w1) =>
      match process_alias_lines r1 rest with
      | none => none
      | some (r2, w2) => some (r2, w1 ++ w2)

/-- Embeds the blacklist loop: `universities.pop(line.strip(), None)` for
every blacklist line. -/
def blacklist_step (reg : Registry) (bl : List String) : Registry :=
  bl.foldl (fun r n => removeKey n r) reg

/-- Matches a pattern at the start of a character list. -/
def prefMatch : List Char → List Char → Bool
  | [], _ => true
  | _ :: _, [] => false
  | a :: as2, b :: bs => decide (a = b) && prefMatch as2 bs

/-- Substring search: somewhere in the list, the pattern matches. -/
def subMatch (pat : List Char) : List Char → Bool
  | [] => prefMatch pat []
  | c :: rest => prefMatch pat (c :: rest) || subMatch pat rest

/-- Embeds `NORMAL_NAME_MATCHER.search(name) is not None`, the regex
`大学|学院|学校` being a plain substring alternation. -/
def hasMarker (name : String) : Bool :=
  subMatch "大学".toList name.toList || subMatch "学院".toList name.toList ||
    subMatch "学校".toList name.toList

/-- Embeds the anomaly scan loop at the end of `process_universities`:
over the registry keys, a name with no institution marker and not in the
whitelist yields one warning carrying the name and the source-record ids
of its attributions.  The loop only prints; it returns the warnings. -/
def anomaly_warnings (reg : Registry) (whitelist : List String) :
    List (String × List Int) :=
  (dictKeys reg).filterMap (fun n =>
    if hasMarker n then none
    else if n ∈ whitelist then none
    else (alookup n reg).map (fun u => (n, u.credits.map IndexedContent.answer_id)))

/-- Embeds `process_universities`: alias merge, then blacklist removal,
then the (read-only) anomaly scan.  The returned registry is the one the
render pipeline receives; warning output is returned alongside. -/
def process_universities (reg : Registry) (aliasLines : List (String × List String))
    (bl wl : List String) : Option (Registry × List String × List (String × List Int)) :=
  match process_alias_lines reg aliasLines with
  | none => none
  | some (r1, warns) =>
    some (blacklist_step r1 bl, warns, anomaly_warnings (blacklist_step r1 bl) wl)

/-- Per-entry form of one anomaly-scan step (same tests as the loop body). -/
def entryWarning (wl : List String) (p : String × University) : Option (String × List Int) :=
  if hasMarker p.1 then none
  else if p.1 ∈ wl then none
  else some (p.1, p.2.credits.map IndexedContent.answer_id)

/-- Concrete marker-free aggregate used by the C6 witness. -/
def flaggedSample : University :=
  { answers := [], additional_answers := [],
    credits := [{ answer_id := 7, content := "匿名" }] }

/-- Concatenation of the images of a list map (`itertools.chain` shape). -/
def catMap {α β : Type} (f : α → List β) : List α → List β
  | [] => []
  | x :: xs => f x ++ catMap f xs

/-- Aggregates of the aliases present in the registry, in declared order. -/
def presentAliasUnis (reg : Registry) (aliases : List String) : List University :=
  aliases.filterMap (fun a => alookup a reg)

/-- Value of a successful `combine_from` (its `some` payload). -/
def combineU (A B : University) : University :=
  { answers := List.zipWith AnswerGroup.extend A.answers B.answers
    additional_answers := A.additional_answers ++ B.additional_answers
    credits := A.credits ++ B.credits }

/-- Path separator on the deployment platform (the source pins `SITE_DIR`
to a Windows path, where pathlib splits on both `/` and `\`). -/
def isSepChar (c : Char) : Bool := c == '/' || c == '\\'

/-- Splits a character list at separators (groups between separators). -/
def splitSeps : List Char → List (List Char)
  | [] => [[]]
  | c :: rest =>
    match splitSeps rest with
    | [] => [[]]
    | g :: gs => if isSepChar c then [] :: g :: gs else (c :: g) :: gs

/-- Components pathlib derives from one string operand of `/`: split at
separators, empty parts dropped. -/
def pathSegs (s : String) : List String :=
  ((splitSeps s.toList).filter (fun g => decide (g ≠ []))).map String.mk

/-- Components of the `SITE_DIR` constant `D:\Project\questionnaire-report-theme`. -/
def siteDirSegs : List String := ["D:", "Project", "questionnaire-report-theme"]

/-- Embeds `generate_markdown_path` as the component list of the returned
`Path`.  Every string operand of pathlib `/` is split at path separators,
so `f'{university_name}.md'` containing `/` contributes several
components rather than a single escaped filename. -/
def generate_markdown_path (province university_name : String) (archived : Bool) :
    List String :=
  siteDirSegs ++ ["content", "docs"] ++ (if archived then ["archived"] else []) ++
    ["universities"] ++ pathSegs province ++ pathSegs (university_name ++ ".md")

/-- Embeds pathlib `Path.stem` on one component: the name without its
suffix; there is a suffix exactly when the last dot sits strictly inside
the name (`0 < i < len - 1`). -/
def stemChars (seg : List Char) : List Char :=
  match seg.reverse.findIdx? (fun c => c == '.') with
  | none => seg
  | some j =>
    if seg.length - 1 - j = 0 then seg
    else if seg.length - 1 - j = seg.length - 1 then seg
    else seg.take (seg.length - 1 - j)

/-- Suffix of a component, the part `Path.with_stem` keeps. -/
def suffixChars (seg : List Char) : List Char := seg.drop (stemChars seg).length

/-- Embeds the illegal-character class of `sanitize_filename`. -/
def illegalFileChars : List Char :=
  ['\\', '/', ':', '*', '?', '"', '<', '>', '|', Char.ofNat 0]

/-- Embeds `sanitize_filename`: every illegal character becomes `_`, and
the flag reports whether anything changed. -/
def sanitize_filename (filename : String) : String × Bool :=
  (String.mk (filename.toList.map (fun c => if c ∈ illegalFileChars then '_' else c)),
   decide (String.mk (filename.toList.map (fun c => if c ∈ illegalFileChars then '_' else c))
     ≠ filename))

/-- Embeds the per-entity path preparation of
`write_markdown_for_universities`: build the target path, sanitize the
stem of its final component, and on a replacement log an error (the
returned flag) and swap in the sanitized stem. -/
def resolve_target (province name : String) (archived : Bool) : List String × Bool :=
  match (generate_markdown_path province name archived).getLast? with
  | none => (generate_markdown_path province name archived, false)
  | some seg =>
    if (sanitize_filename (String.mk (stemChars seg.toList))).2 then
      ((generate_markdown_path province name archived).dropLast ++
        [(sanitize_filename (String.mk (stemChars seg.toList))).1 ++
          String.mk (suffixChars seg.toList)], true)
    else (generate_markdown_path province name archived, false)

/-- Embeds a parsed `datetime` value (CSV lexing and `strptime` scalar
parsing are external boundary collaborators). -/
structure PyDateTime where
  year : Nat
  month : Nat
  day : Nat
  hour : Nat
  minute : Nat
  second : Nat
deriving DecidableEq

/-- Embeds Python `datetime` comparison `<`: lexicographic on the
components year, month, day, hour, minute, second. -/
def dtLt (a b : PyDateTime) : Bool :=
  if a.year ≠ b.year then decide (a.year < b.year)
  else if a.month ≠ b.month then decide (a.month < b.month)
  else if a.day ≠ b.day then decide (a.day < b.day)
  else if a.hour ≠ b.hour then decide (a.hour < b.hour)
  else if a.minute ≠ b.minute then decide (a.minute < b.minute)
  else decide (a.second < b.second)

/-- Embeds `datetime.strptime(ARCHIVE_TIME, '%Y-%m-%d %H:%M:%S')` for the
module constant `ARCHIVE_TIME = '2023-01-01 00:00:00'`. -/
def archive_cut : PyDateTime :=
  { year := 2023, month := 1, day := 1, hour := 0, minute := 0, second := 0 }

/-- Embeds one parsed CSV row as consumed by `load_to_universities`:
record id, anonymity code, contact and show-contact fields, raw name, the
per-question answers, the free-text answer and the submission time
(`float(show_email) == 1.0` is kept as the boolean it induces). -/
structure Row where
  aid : Int
  anonymous : Int
  email : String
  show_email_one : Bool
  name : String
  answers : List String
  additional : String
  submit_time : PyDateTime
deriving DecidableEq

/-- Two-digit zero-padded rendering (`%m` formatting). -/
def pad2 (n : Nat) : String := if n < 10 then "0" ++ natToString n else natToString n

/-- Embeds the `f'{submit_time:%Y 年 %m 月}'` portion of the credit line. -/
def format_ym (t : PyDateTime) : String :=
  natToString t.year ++ " 年 " ++ pad2 t.month ++ " 月"

/-- Embeds `show_email_flag = not anonymous_flag and float(show_email) == 1.0`. -/
def show_email_flag (row : Row) : Bool :=
  !(decide (row.anonymous = 2)) && row.show_email_one

/-- Embeds the credit-line computation of `load_to_universities`. -/
def credit_text (row : Row) : String :=
  if show_email_flag row = true ∧ row.email ≠ "" then
    row.email ++ " (" ++ format_ym row.submit_time ++ ")"
  else "匿名 (" ++ format_ym row.submit_time ++ ")"

/-- Embeds `NAME_PREPROCESS.sub('', name)`: removes brackets and `#`. -/
def stripNameChars (s : String) : String :=
  String.mk (s.toList.filter (fun c => decide (c ∉ ['(', ')', '（', '）', '【', '】', '#'])))

/-- Embeds `universities[name]` on a `defaultdict(University)`: the stored
aggregate, or a fresh one on a missing key. -/
def getOrNew (reg : Registry) (name : String) : University :=
  (alookup name reg).getD University.new

/-- Writes back the (possibly fresh) aggregate: an existing entry keeps
its position, a fresh one is appended (dict insertion order). -/
def setOrAppend (reg : Registry) (name : String) (u : University) : Registry :=
  if (alookup name reg).isSome then setKey name u reg else reg ++ [(name, u)]

/-- Embeds `load_to_universities`: normalize the name (external `zhconv`
conversion, bracket stripping, `strip()`), append the credit line, each
per-question answer by position, and the supplementary answer.  An
out-of-range answer index raises (`none`). -/
def load_to_universities (zhconvert : String → String) (reg : Registry) (row : Row) :
    Option Registry :=
  match ((getOrNew reg ((stripNameChars (zhconvert row.name)).trim)).add_credit
      { answer_id := row.aid, content := credit_text row }
      |> fun u0 => row.answers.enum.foldlM
        (fun u2 pr => u2.add_answer pr.1 { answer_id := row.aid, content := pr.2 }) u0) with
  | none => none
  | some uni2 =>
    some (setOrAppend reg ((stripNameChars (zhconvert row.name)).trim)
      (uni2.add_additional_answer { answer_id := row.aid, content := row.additional }))

/-- Embeds the body of the module-level row loop: a row strictly earlier
than the archive cutoff goes to the archived registry, any other row to
the active registry (`acc = (active, archived)`). -/
def load_rows_step (zhconvert : String → String) (acc : Registry × Registry) (row : Row) :
    Option (Registry × Registry) :=
  if dtLt row.submit_time archive_cut then
    match load_to_universities zhconvert acc.2 row with
    | none => none
    | some r => some (acc.1, r)
  else
    match load_to_universities zhconvert acc.1 row with
    | none => none
    | some r => some (r, acc.2)

/-- Embeds the module-level row loop over the whole input. -/
def load_rows (zhconvert : String → String) (rows : List Row) :
    Option (Registry × Registry) :=
  rows.foldlM (load_rows_step zhconvert) ([], [])

theorem digitChar_val : ∀ d, d < 10 → (digitChar d).toNat - 48 = d := by decide

theorem charsVal_append_digit (l : List Char) (c : Char) :
    charsVal (l ++ [c]) = charsVal l * 10 + (c.toNat - 48) := by
  simp [charsVal, List.foldl_append]

theorem charsVal_natChars (n : Nat) : charsVal (natChars n) = n := by
  induction n using Nat.strong_induction_on with
  | _ n ih =>
    rw [natChars]
    split
    · rename_i hlt
      simp [charsVal]
      exact digitChar_val n hlt
    · rename_i h
      rw [charsVal_append_digit, ih (n / 10) (Nat.div_lt_self (by omega) (by omega))]
      have h10 : n % 10 < 10 := Nat.mod_lt n (by omega)
      rw [digitChar_val (n % 10) h10]
      omega

theorem natChars_inj {a b : Nat} (h : natChars a = natChars b) : a = b := by
  have h2 := congrArg charsVal h
  rwa [charsVal_natChars, charsVal_natChars] at h2

theorem natChars_ne_nil (n : Nat) : natChars n ≠ [] := by
  rw [natChars]
  split <;> simp

theorem slugCandidate_inj (base : String) {i j : Nat}
    (h : slugCandidate base i = slugCandidate base j) : i = j := by
  unfold slugCandidate at h
  have hlen : ∀ k : Nat, ¬ (base = base ++ "-" ++ natToString k) := by
    intro k hk
    have hd := congrArg String.length hk
    rw [String.length_append, String.length_append] at hd
    have h1 : ("-" : String).length = 1 := rfl
    have h2 : 1 ≤ (natToString k).length := by
      show 1 ≤ (natChars k).length
      cases hnc : natChars k with
      | nil => exact absurd hnc (natChars_ne_nil k)
      | cons c cs => simp
    omega
  by_cases h1 : i = 1 <;> by_cases h2 : j = 1
  · omega
  · rw [if_pos h1, if_neg h2] at h
    exact absurd h (hlen j)
  · rw [if_neg h1, if_pos h2] at h
    exact absurd h.symm (hlen i)
  · rw [if_neg h1, if_neg h2] at h
    have hd := congrArg String.data h
    simp [natToString] at hd
    exact natChars_inj hd

theorem freshAux_mem_all (base : String) (used : List String) :
    ∀ fuel idx, freshAux base used fuel idx ∈ used →
      ∀ j, j ≤ fuel → slugCandidate base (idx + j) ∈ used := by
  intro fuel
  induction fuel with
  | zero =>
    intro idx hmem j hj
    have hj0 : j = 0 := Nat.le_zero.mp hj
    subst hj0
    simpa [freshAux] using hmem
  | succ fuel ih =>
    intro idx hmem j hj
    by_cases hin : slugCandidate base idx ∈ used
    · rw [freshAux, if_pos hin] at hmem
      cases j with
      | zero => simpa using hin
      | succ j2 =>
        have hj2 : j2 ≤ fuel := by omega
        have := ih (idx + 1) hmem j2 hj2
        have heq : idx + 1 + j2 = idx + (j2 + 1) := by omega
        rwa [heq] at this
    · rw [freshAux, if_neg hin] at hmem
      exact absurd hmem hin

theorem freshSlug_not_mem (base : String) (used : List String) :
    freshSlug base used ∉ used := by
  intro hmem
  have hall := freshAux_mem_all base used (used.length + 1) 1 hmem
  have hmaps : ∀ j ∈ Finset.range (used.length + 2), slugCandidate base (1 + j) ∈ used.toFinset := by
    intro j hj
    rw [List.mem_toFinset]
    exact hall j (by simpa using Nat.lt_succ_iff.mp (Finset.mem_range.mp hj))
  have hinj : Set.InjOn (fun j => slugCandidate base (1 + j)) (Finset.range (used.length + 2)) := by
    intro j1 _ j2 _ hj
    have := slugCandidate_inj base hj
    omega
  have hcard := Finset.card_le_card_of_injOn (fun j => slugCandidate base (1 + j)) hmaps hinj
  have hle := used.toFinset_card_le
  rw [Finset.card_range] at hcard
  omega

theorem alookup_eq_none {β : Type} (k : String) (l : List (String × β)) :
    alookup k l = none ↔ k ∉ dictKeys l := by
  induction l with
  | nil => simp [alookup, dictKeys]
  | cons p rest ih =>
    rw [alookup]
    have hk : dictKeys (p :: rest) = p.1 :: dictKeys rest := rfl
    rw [hk]
    by_cases hp : p.1 = k
    · rw [if_pos hp]
      constructor
      · intro h
        cases h
      · intro h
        exact absurd (by rw [hp]; exact List.mem_cons_self _ _) h
    · rw [if_neg hp, ih]
      constructor
      · intro h hmem
        rcases List.mem_cons.mp hmem with h1 | h2
        · exact hp h1.symm
        · exact h h2
      · intro h hmem
        exact h (List.mem_cons_of_mem _ hmem)

theorem alookup_mem {β : Type} {k : String} {l : List (String × β)} {v : β}
    (h : alookup k l = some v) : (k, v) ∈ l := by
  induction l with
  | nil => simp [alookup] at h
  | cons p rest ih =>
    by_cases hp : p.1 = k
    · rw [alookup, if_pos hp] at h
      have hv : p.2 = v := by injection h
      have hpkv : (k, v) = p := by
        cases p with
        | mk a b =>
          simp at hp hv
          rw [hp, hv]
      rw [hpkv]
      exact List.mem_cons_self _ _
    · rw [alookup, if_neg hp] at h
      exact List.mem_cons_of_mem p (ih h)

theorem alookup_append_left {β : Type} {k : String} {l1 : List (String × β)} {v : β}
    (l2 : List (String × β)) (h : alookup k l1 = some v) :
    alookup k (l1 ++ l2) = some v := by
  induction l1 with
  | nil => simp [alookup] at h
  | cons p rest ih =>
    by_cases hp : p.1 = k
    · rw [alookup, if_pos hp] at h
      rw [List.cons_append, alookup, if_pos hp]
      exact h
    · rw [alookup, if_neg hp] at h
      rw [List.cons_append, alookup, if_neg hp]
      exact ih h

theorem alookup_append_self {β : Type} {k : String} {l : List (String × β)} (v : β)
    (h : alookup k l = none) : alookup k (l ++ [(k, v)]) = some v := by
  induction l with
  | nil => simp [alookup]
  | cons p rest ih =>
    by_cases hp : p.1 = k
    · rw [alookup, if_pos hp] at h
      cases h
    · rw [alookup, if_neg hp] at h
      rw [List.cons_append, alookup, if_neg hp]
      exact ih h

theorem FMInv_empty : FMInv FilenameMap.empty := by
  refine ⟨?_, ?_, ?_⟩ <;> simp [FilenameMap.empty, dictKeys]

theorem getItem_fst_of_lookup (f : String → String) (m : FilenameMap) {name s : String}
    (h : alookup name m.mapping = some s) : (FilenameMap.getItem f m name).1 = s := by
  simp [FilenameMap.getItem, h]

theorem getItem_inv (f : String → String) (m : FilenameMap) (name : String)
    (hm : FMInv m) : FMInv (FilenameMap.getItem f m name).2 := by
  rcases hm with ⟨hnd, hsub, hinj⟩
  rcases hl : alookup name m.mapping with _ | s
  · have hkey : name ∉ dictKeys m.mapping := (alookup_eq_none name m.mapping).mp hl
    have hfresh := freshSlug_not_mem (f (stripFilenameChars name)) m.used
    simp only [FilenameMap.getItem, hl]
    refine ⟨?_, ?_, ?_⟩
    · simp only [dictKeys, List.map_append, List.map_cons, List.map_nil]
      rw [List.nodup_append]
      refine ⟨hnd, List.nodup_singleton _, ?_⟩
      intro a ha hb
      simp at hb
      rw [hb] at ha
      exact hkey ha
    · intro p hp
      rcases List.mem_append.mp hp with hp1 | hp2
      · exact List.mem_cons_of_mem _ (hsub p hp1)
      · simp at hp2
        rw [hp2]
        exact List.mem_cons_self _ _
    · intro p hp q hq hne
      rcases List.mem_append.mp hp with hp1 | hp2 <;>
        rcases List.mem_append.mp hq with hq1 | hq2
      · exact hinj p hp1 q hq1 hne
      · simp at hq2
        rw [hq2]
        intro hcontra
        simp at hcontra
        have hpu := hsub p hp1
        rw [hcontra] at hpu
        exact hfresh hpu
      · simp at hp2
        rw [hp2]
        intro hcontra
        simp at hcontra
        have hqu := hsub q hq1
        rw [← hcontra] at hqu
        exact hfresh hqu
      · simp at hp2 hq2
        rw [hp2, hq2] at hne
        simp at hne
  · simpa [FilenameMap.getItem, hl] using ⟨hnd, hsub, hinj⟩

theorem getItem_lookup_mono (f : String → String) (m : FilenameMap) (nm : String)
    {n s : String} (h : alookup n m.mapping = some s) :
    alookup n ((FilenameMap.getItem f m nm).2).mapping = some s := by
  rcases hl : alookup nm m.mapping with _ | s2
  · simp only [FilenameMap.getItem, hl]
    exact alookup_append_left _ h
  · simpa [FilenameMap.getItem, hl] using h

theorem getItem_stored (f : String → String) (m : FilenameMap) (name : String) :
    alookup name ((FilenameMap.getItem f m name).2).mapping =
      some (FilenameMap.getItem f m name).1 := by
  rcases hl : alookup name m.mapping with _ | s
  · simp only [FilenameMap.getItem, hl]
    exact alookup_append_self _ hl
  · simp [FilenameMap.getItem, hl]

theorem runLookups_inv (f : String → String) (names : List String) (m : FilenameMap)
    (hm : FMInv m) : FMInv (runLookups f m names) := by
  induction names generalizing m with
  | nil => exact hm
  | cons n rest ih =>
    exact ih _ (getItem_inv f m n hm)

theorem runLookups_lookup_mono (f : String → String) (names : List String) (m : FilenameMap)
    {n s : String} (h : alookup n m.mapping = some s) :
    alookup n (runLookups f m names).mapping = some s := by
  induction names generalizing m with
  | nil => exact h
  | cons nm rest ih =>
    exact ih _ (getItem_lookup_mono f m nm h)

/-- C1: on any single `FilenameMap` instance, after any sequence of
`__getitem__` lookups (for an arbitrary external `slugify` function `f`):
the stored name-to-slug mapping is injective, a later lookup of an already
assigned name returns exactly the memoized slug (even after arbitrary
further lookups of other names), every slug stored in `mapping` is a member
of `used`, and two distinct names never receive the same slug. -/
theorem claim_C1_slug_assignment (f : String → String) (names : List String)
    (M : FilenameMap) (hM : M = runLookups f FilenameMap.empty names) :
    (∀ p ∈ M.mapping, ∀ q ∈ M.mapping, p.1 ≠ q.1 → p.2 ≠ q.2) ∧
    (∀ n s more, alookup n M.mapping = some s →
      (FilenameMap.getItem f (runLookups f M more) n).1 = s) ∧
    (∀ p ∈ M.mapping, p.2 ∈ M.used) ∧
    (∀ n1 n2, n1 ≠ n2 →
      (FilenameMap.getItem f M n1).1 ≠
        (FilenameMap.getItem f ((FilenameMap.getItem f M n1).2) n2).1) := by
  have hinv : FMInv M := by
    rw [hM]
    exact runLookups_inv f names _ FMInv_empty
  refine ⟨hinv.2.2, ?_, hinv.2.1, ?_⟩
  · intro n s more h
    exact getItem_fst_of_lookup f _ (runLookups_lookup_mono f more _ h)
  · intro n1 n2 hne hcontra
    have h1 := getItem_stored f M n1
    have hinv1 := getItem_inv f M n1 hinv
    have hinv2 := getItem_inv f _ n2 hinv1
    have h2 := getItem_stored f ((FilenameMap.getItem f M n1).2) n2
    have h1m := getItem_lookup_mono f ((FilenameMap.getItem f M n1).2) n2 h1
    have hmem1 := alookup_mem h1m
    have hmem2 := alookup_mem h2
    have hinj := hinv2.2.2 _ hmem1 _ hmem2 (by simpa using hne)
    simp at hinj
    exact hinj hcontra

/-- Witness for C1: two distinct concrete names looked up on a concrete
fresh map receive distinct slugs. -/
theorem claim_C1_slug_assignment_witness :
    (FilenameMap.getItem (fun s => s) FilenameMap.empty "x").1 ≠
      (FilenameMap.getItem (fun s => s)
        ((FilenameMap.getItem (fun s => s) FilenameMap.empty "x").2) "y").1 :=
  (claim_C1_slug_assignment (fun s => s) [] FilenameMap.empty rfl).2.2.2 "x" "y" (by decide)

theorem zipWith_getD (f : AnswerGroup → AnswerGroup → AnswerGroup) (d : AnswerGroup) :
    ∀ (l1 l2 : List AnswerGroup) (i : Nat), l1.length = l2.length → i < l1.length →
      (List.zipWith f l1 l2).getD i d = f (l1.getD i d) (l2.getD i d) := by
  intro l1
  induction l1 with
  | nil =>
    intro l2 i h hi
    simp at hi
  | cons a l1 ih =>
    intro l2 i h hi
    cases l2 with
    | nil => simp at h
    | cons b l2 =>
      cases i with
      | zero => simp
      | succ i2 =>
        simp only [List.zipWith_cons_cons, List.getD_cons_succ]
        exact ih l2 i2 (by simpa using h) (by simpa using hi)

/-- C2: for aggregates with equal answer-bin counts, `combine_from`
succeeds and, for every question index, the merged bin is this aggregate's
records followed by the other's records in that order; the supplementary
answers and the attribution lines are likewise self-before-other. -/
theorem claim_C2_merge_order (A B : University) (h : A.answers.length = B.answers.length) :
    ∃ C, A.combine_from B = some C ∧
      (∀ i, i < A.answers.length → binAt C i = binAt A i ++ binAt B i) ∧
      C.additional_answers = A.additional_answers ++ B.additional_answers ∧
      C.credits = A.credits ++ B.credits := by
  refine ⟨{ answers := List.zipWith AnswerGroup.extend A.answers B.answers
            additional_answers := A.additional_answers ++ B.additional_answers
            credits := A.credits ++ B.credits }, ?_, ?_, rfl, rfl⟩
  · rw [University.combine_from, if_pos h]
  · intro i hi
    show ((List.zipWith AnswerGroup.extend A.answers B.answers).getD i { answers := [] }).answers
      = binAt A i ++ binAt B i
    rw [zipWith_getD AnswerGroup.extend { answers := [] } A.answers B.answers i h hi]
    rfl

/-- Witness for C2 at two concrete equal-length aggregates. -/
theorem claim_C2_merge_order_witness :
    ∃ C, University.new.combine_from University.new = some C ∧
      (∀ i, i < University.new.answers.length →
        binAt C i = binAt University.new i ++ binAt University.new i) ∧
      C.additional_answers =
        University.new.additional_answers ++ University.new.additional_answers ∧
      C.credits = University.new.credits ++ University.new.credits :=
  claim_C2_merge_order University.new University.new rfl

/-- C3: a fresh aggregate has exactly `len(QUESTIONNAIRE)` answer bins;
`add_answer`, `add_additional_answer`, `add_credit` and a successful
`combine_from` preserve the bin count, and `combine_from` on two
aggregates of unequal bin counts fails fast (`none`, the
`zip(strict=True)` `ValueError`) instead of silently merging. -/
theorem claim_C3_bin_count :
    University.new.answers.length = QUESTIONNAIRE.length ∧
    (∀ (u v : University) (i : Nat) (a : IndexedContent),
      u.add_answer i a = some v → v.answers.length = u.answers.length) ∧
    (∀ (u : University) (a : IndexedContent),
      (u.add_additional_answer a).answers.length = u.answers.length) ∧
    (∀ (u : University) (a : IndexedContent),
      (u.add_credit a).answers.length = u.answers.length) ∧
    (∀ (u v w : University), u.combine_from v = some w →
      w.answers.length = u.answers.length) ∧
    (∀ (u v : University), u.answers.length ≠ v.answers.length →
      u.combine_from v = none) := by
  refine ⟨?_, ?_, ?_, ?_, ?_, ?_⟩
  · simp [University.new]
  · intro u v i a h
    unfold University.add_answer at h
    split at h
    · cases h
      simp
    · cases h
  · intro u a
    unfold University.add_additional_answer
    split <;> rfl
  · intro u a
    rfl
  · intro u v w h
    unfold University.combine_from at h
    split at h
    · rename_i hlen
      cases h
      simp [hlen]
    · cases h
  · intro u v hne
    unfold University.combine_from
    rw [if_neg hne]

/-- Witness for C3: the hypothesis-bearing conjuncts applied at concrete
aggregates (a successful `add_answer` and a mismatched `combine_from`). -/
theorem claim_C3_bin_count_witness :
    University.new.combine_from { answers := [], additional_answers := [], credits := [] } =
      none :=
  claim_C3_bin_count.2.2.2.2.2 University.new _ (by decide)

/-- C8: adding a supplementary answer with empty text leaves the aggregate
unchanged; with non-empty text it appends exactly one entry at the end. -/
theorem claim_C8_supplementary_filter (u : University) (a : IndexedContent) :
    (a.content = "" → u.add_additional_answer a = u) ∧
    (a.content ≠ "" →
      (u.add_additional_answer a).additional_answers = u.additional_answers ++ [a]) := by
  constructor
  · intro h
    unfold University.add_additional_answer
    rw [if_pos h]
  · intro h
    unfold University.add_additional_answer
    rw [if_neg h]

/-- Witness for C8 at a concrete empty and a concrete non-empty record. -/
theorem claim_C8_supplementary_filter_witness :
    (University.new.add_additional_answer { answer_id := 1, content := "" } = University.new) ∧
    ((University.new.add_additional_answer { answer_id := 1, content := "ok" }).additional_answers
      = University.new.additional_answers ++ [{ answer_id := 1, content := "ok" }]) :=
  ⟨(claim_C8_supplementary_filter University.new _).1 rfl,
   (claim_C8_supplementary_filter University.new _).2 (by decide)⟩

/-- C9: the worker-pool size is `min(32, max(1, logicalCores * 4))` with
`logicalCores` taken as 1 when undetermined, and is always in `[1, 32]`. -/
theorem claim_C9_worker_pool (c : Option Nat) :
    max_workers c = min 32 (max 1 (cpu_count_or_one c * 4)) ∧
    cpu_count_or_one none = 1 ∧
    1 ≤ max_workers c ∧ max_workers c ≤ 32 := by
  refine ⟨rfl, rfl, ?_, ?_⟩
  · unfold max_workers
    omega
  · unfold max_workers
    omega

theorem removeKey_not_mem {β : Type} (k : String) (l : List (String × β))
    (h : alookup k l = none) : removeKey k l = l := by
  induction l with
  | nil => rfl
  | cons p rest ih =>
    by_cases hp : p.1 = k
    · rw [alookup, if_pos hp] at h
      cases h
    · rw [alookup, if_neg hp] at h
      rw [removeKey, if_neg hp, ih h]

theorem alookup_removeKey_ne {β : Type} {k k2 : String} (hne : k ≠ k2)
    (l : List (String × β)) : alookup k (removeKey k2 l) = alookup k l := by
  induction l with
  | nil => rfl
  | cons p rest ih =>
    by_cases hp : p.1 = k2
    · rw [removeKey, if_pos hp, alookup, if_neg (by rw [hp]; exact fun he => hne he.symm)]
    · rw [removeKey, if_neg hp]
      by_cases hp2 : p.1 = k
      · rw [alookup, if_pos hp2, alookup, if_pos hp2]
      · rw [alookup, if_neg hp2, alookup, if_neg hp2]
        exact ih

theorem alookup_removeKey_self {β : Type} (k : String) (l : List (String × β))
    (hnd : (dictKeys l).Nodup) : alookup k (removeKey k l) = none := by
  induction l with
  | nil => rfl
  | cons p rest ih =>
    have hk : dictKeys (p :: rest) = p.1 :: dictKeys rest := rfl
    rw [hk, List.nodup_cons] at hnd
    by_cases hp : p.1 = k
    · rw [removeKey, if_pos hp]
      rw [alookup_eq_none]
      rw [← hp]
      exact hnd.1
    · rw [removeKey, if_neg hp, alookup, if_neg hp]
      exact ih hnd.2

theorem dictKeys_removeKey_sublist {β : Type} (k : String) (l : List (String × β)) :
    (dictKeys (removeKey k l)).Sublist (dictKeys l) := by
  induction l with
  | nil => exact List.Sublist.refl _
  | cons p rest ih =>
    by_cases hp : p.1 = k
    · rw [removeKey, if_pos hp]
      exact List.sublist_cons_self _ _
    · rw [removeKey, if_neg hp]
      exact List.Sublist.cons₂ _ ih

theorem dictKeys_setKey {β : Type} (k : String) (v : β) (l : List (String × β)) :
    dictKeys (setKey k v l) = dictKeys l := by
  induction l with
  | nil => rfl
  | cons p rest ih =>
    by_cases hp : p.1 = k
    · rw [setKey, if_pos hp]
      show k :: dictKeys rest = p.1 :: dictKeys rest
      rw [hp]
    · rw [setKey, if_neg hp]
      show p.1 :: dictKeys (setKey k v rest) = p.1 :: dictKeys rest
      rw [ih]

theorem alookup_setKey_self {β : Type} (k : String) (v : β) (l : List (String × β))
    (h : k ∈ dictKeys l) : alookup k (setKey k v l) = some v := by
  induction l with
  | nil => simp [dictKeys] at h
  | cons p rest ih =>
    by_cases hp : p.1 = k
    · rw [setKey, if_pos hp, alookup, if_pos rfl]
    · rw [setKey, if_neg hp, alookup, if_neg hp]
      have hk : dictKeys (p :: rest) = p.1 :: dictKeys rest := rfl
      rw [hk] at h
      rcases List.mem_cons.mp h with h1 | h2
      · exact absurd h1.symm hp
      · exact ih h2

theorem alookup_setKey_ne {β : Type} {k k2 : String} (hne : k ≠ k2) (v : β)
    (l : List (String × β)) : alookup k (setKey k2 v l) = alookup k l := by
  induction l with
  | nil => rfl
  | cons p rest ih =>
    by_cases hp : p.1 = k2
    · rw [setKey, if_pos hp, alookup, if_neg (fun he => hne he.symm), alookup,
        if_neg (by rw [hp]; exact fun he => hne he.symm)]
    · rw [setKey, if_neg hp]
      by_cases hp2 : p.1 = k
      · rw [alookup, if_pos hp2, alookup, if_pos hp2]
      · rw [alookup, if_neg hp2, alookup, if_neg hp2]
        exact ih

theorem alookup_mem_keys {β : Type} {k : String} {l : List (String × β)} {v : β}
    (h : alookup k l = some v) : k ∈ dictKeys l := by
  have hm := alookup_mem h
  exact List.mem_map.mpr ⟨(k, v), hm, rfl⟩

/-- C7: blacklist removal never raises; a present key is removed (and
removal is idempotent), an absent key leaves the registry completely
unchanged, and no other entry is affected. -/
theorem claim_C7_blacklist_removal (reg : Registry) (n : String)
    (hnd : (dictKeys reg).Nodup) :
    (alookup n reg = none → blacklist_step reg [n] = reg) ∧
    alookup n (blacklist_step reg [n]) = none ∧
    blacklist_step (blacklist_step reg [n]) [n] = blacklist_step reg [n] ∧
    (∀ k, k ≠ n → alookup k (blacklist_step reg [n]) = alookup k reg) := by
  have hb : blacklist_step reg [n] = removeKey n reg := rfl
  have hnone : alookup n (removeKey n reg) = none := alookup_removeKey_self n reg hnd
  refine ⟨?_, ?_, ?_, ?_⟩
  · intro h
    rw [hb]
    exact removeKey_not_mem n reg h
  · rw [hb]
    exact hnone
  · rw [hb]
    show removeKey n (removeKey n reg) = removeKey n reg
    exact removeKey_not_mem n _ hnone
  · intro k hk
    rw [hb]
    exact alookup_removeKey_ne hk reg

/-- Witness for C7: removing an absent key from a concrete registry is a
no-op. -/
theorem claim_C7_blacklist_removal_witness :
    blacklist_step [("甲大学", University.new)] ["乙"] = [("甲大学", University.new)] :=
  (claim_C7_blacklist_removal [("甲大学", University.new)] "乙" (by decide)).1 rfl

theorem filterMap_congr_mem {α β : Type} {l : List α} {f g : α → Option β}
    (h : ∀ x ∈ l, f x = g x) : l.filterMap f = l.filterMap g := by
  induction l with
  | nil => rfl
  | cons a rest ih =>
    rw [List.filterMap_cons, List.filterMap_cons, h a (List.mem_cons_self a rest),
      ih (fun x hx => h x (List.mem_cons_of_mem a hx))]

theorem entryWarning_key {wl : List String} {p : String × University}
    {w : String × List Int} (h : entryWarning wl p = some w) : w.1 = p.1 := by
  unfold entryWarning at h
  split at h
  · cases h
  · split at h
    · cases h
    · cases h
      rfl

theorem anomaly_warnings_entries (wl : List String) :
    ∀ reg : Registry, (dictKeys reg).Nodup →
      anomaly_warnings reg wl = reg.filterMap (entryWarning wl) := by
  intro reg
  induction reg with
  | nil => intro _; rfl
  | cons p rest ih =>
    intro hnd
    have hk : dictKeys (p :: rest) = p.1 :: dictKeys rest := rfl
    rw [hk, List.nodup_cons] at hnd
    have hlook : alookup p.1 (p :: rest) = some p.2 := by rw [alookup, if_pos rfl]
    have hhead : (if hasMarker p.1 then none
        else if p.1 ∈ wl then none
        else (alookup p.1 (p :: rest)).map
          (fun u => (p.1, u.credits.map IndexedContent.answer_id)))
        = entryWarning wl p := by
      rw [hlook]
      rfl
    have htail : ((dictKeys rest).filterMap (fun n =>
        if hasMarker n then none
        else if n ∈ wl then none
        else (alookup n (p :: rest)).map
          (fun u => (n, u.credits.map IndexedContent.answer_id))))
        = anomaly_warnings rest wl := by
      apply filterMap_congr_mem
      intro n hn
      have hne : p.1 ≠ n := fun he => hnd.1 (he ▸ hn)
      rw [show alookup n (p :: rest) = alookup n rest from by rw [alookup, if_neg hne]]
    have hstep : anomaly_warnings (p :: rest) wl =
        match entryWarning wl p with
        | none => anomaly_warnings rest wl
        | some w => w :: anomaly_warnings rest wl := by
      show (p.1 :: dictKeys rest).filterMap _ = _
      rw [List.filterMap_cons, hhead, htail]
      cases entryWarning wl p <;> rfl
    rw [hstep, ih hnd.2, List.filterMap_cons]
    cases entryWarning wl p <;> rfl

theorem entry_warnings_keys (wl : List String) (reg : Registry) :
    ∀ w ∈ reg.filterMap (entryWarning wl), w.1 ∈ dictKeys reg := by
  intro w hw
  rcases List.mem_filterMap.mp hw with ⟨p, hp, he⟩
  rw [entryWarning_key he]
  exact List.mem_map.mpr ⟨p, hp, rfl⟩

theorem entry_filter_unique (wl : List String) :
    ∀ reg : Registry, (dictKeys reg).Nodup → ∀ (n : String) (u : University),
      alookup n reg = some u → hasMarker n = false → n ∉ wl →
      (reg.filterMap (entryWarning wl)).filter (fun w => decide (w.1 = n)) =
        [(n, u.credits.map IndexedContent.answer_id)] := by
  intro reg
  induction reg with
  | nil =>
    intro _ n u hlook
    cases hlook
  | cons p rest ih =>
    intro hnd n u hlook hmark hwl
    have hk : dictKeys (p :: rest) = p.1 :: dictKeys rest := rfl
    rw [hk, List.nodup_cons] at hnd
    by_cases hp : p.1 = n
    · have hu : u = p.2 := by
        rw [alookup, if_pos hp] at hlook
        injection hlook with h2
        exact h2.symm
      have hE : entryWarning wl p = some (n, u.credits.map IndexedContent.answer_id) := by
        unfold entryWarning
        rw [hp, hu, hmark]
        simp [hwl]
      rw [List.filterMap_cons, hE, List.filter_cons_of_pos (by simp)]
      have htail : (rest.filterMap (entryWarning wl)).filter (fun w => decide (w.1 = n)) = [] := by
        rw [List.filter_eq_nil_iff]
        intro w hw
        have hkey := entry_warnings_keys wl rest w hw
        have hne : w.1 ≠ n := by
          intro he
          rw [he, ← hp] at hkey
          exact hnd.1 hkey
        simp [hne]
      rw [htail]
    · have hlook2 : alookup n rest = some u := by
        rw [alookup, if_neg hp] at hlook
        exact hlook
      rw [List.filterMap_cons]
      cases hE : entryWarning wl p with
      | none => exact ih hnd.2 n u hlook2 hmark hwl
      | some w =>
        have hw1 := entryWarning_key hE
        rw [List.filter_cons_of_neg (by simp [hw1, hp])]
        exact ih hnd.2 n u hlook2 hmark hwl

theorem mergeAliases_keys_sublist (primary : String) :
    ∀ (aliases : List String) (p : University) (reg : Registry) (p2 : University)
      (reg2 : Registry), mergeAliases primary p reg aliases = some (p2, reg2) →
      (dictKeys reg2).Sublist (dictKeys reg) := by
  intro aliases
  induction aliases with
  | nil =>
    intro p reg p2 reg2 h
    rw [mergeAliases] at h
    cases h
    exact List.Sublist.refl _
  | cons a rest ih =>
    intro p reg p2 reg2 h
    rw [mergeAliases] at h
    split at h
    · exact ih p reg p2 reg2 h
    · split at h
      · cases h
      · rename_i u heq p2a hc
        exact (ih p2a (removeKey a reg) p2 reg2 h).trans (dictKeys_removeKey_sublist a reg)

theorem process_alias_line_keys_sublist (reg : Registry) (name : String)
    (aliases : List String) (r2 : Registry) (w : List String)
    (h : process_alias_line reg name aliases = some (r2, w)) :
    (dictKeys r2).Sublist (dictKeys reg) := by
  unfold process_alias_line at h
  split at h
  · cases h
    exact List.Sublist.refl _
  · split at h
    · cases h
    · rename_i x pv heqv scr2 p2 reg2m hm
      cases h
      rw [dictKeys_setKey]
      exact mergeAliases_keys_sublist name aliases pv reg p2 reg2m hm

theorem process_alias_lines_keys_sublist :
    ∀ (lines : List (String × List String)) (reg r2 : Registry) (w : List String),
      process_alias_lines reg lines = some (r2, w) →
      (dictKeys r2).Sublist (dictKeys reg) := by
  intro lines
  induction lines with
  | nil =>
    intro reg r2 w h
    rw [process_alias_lines] at h
    cases h
    exact List.Sublist.refl _
  | cons line rest ih =>
    intro reg r2 w h
    rw [process_alias_lines] at h
    split at h
    · cases h
    · split at h
      · cases h
      · rename_i s1 r1 w1 h1 s2 r2a w2 h2
        cases h
        exact (ih r1 r2 w2 h2).trans
          (process_alias_line_keys_sublist reg line.1 line.2 r1 w1 h1)

theorem blacklist_step_keys_sublist (bl : List String) :
    ∀ reg : Registry, (dictKeys (blacklist_step reg bl)).Sublist (dictKeys reg) := by
  induction bl with
  | nil => intro reg; exact List.Sublist.refl _
  | cons n rest ih =>
    intro reg
    show (dictKeys (blacklist_step (removeKey n reg) rest)).Sublist _
    exact (ih (removeKey n reg)).trans (dictKeys_removeKey_sublist n reg)

/-- C6: the anomaly scan is pure observability.  Whenever
`process_universities` succeeds, the registry it hands to rendering is
exactly the post-blacklist registry (the scan removes no key and alters no
aggregate), the anomaly output is exactly the scan of that registry, and
every surviving key whose name has no institution-type marker and is not
whitelisted produces exactly one warning, carrying that name and the
source-record ids of its attributions, while its entry stays in the
rendered registry untouched. -/
theorem claim_C6_anomaly_scan (reg : Registry) (aliasLines : List (String × List String))
    (bl wl : List String) (hnd : (dictKeys reg).Nodup) :
    ∀ rOut warns anom,
      process_universities reg aliasLines bl wl = some (rOut, warns, anom) →
      (∃ r1 w1, process_alias_lines reg aliasLines = some (r1, w1) ∧
        rOut = blacklist_step r1 bl ∧ warns = w1) ∧
      anom = anomaly_warnings rOut wl ∧
      ∀ n u, alookup n rOut = some u → hasMarker n = false → n ∉ wl →
        anom.filter (fun w => decide (w.1 = n)) =
          [(n, u.credits.map IndexedContent.answer_id)] := by
  intro rOut warns anom h
  unfold process_universities at h
  split at h
  · cases h
  · rename_i s1 r1 w1 h1
    cases h
    have hnd2 : (dictKeys (blacklist_step r1 bl)).Nodup :=
      hnd.sublist ((blacklist_step_keys_sublist bl r1).trans
        (process_alias_lines_keys_sublist aliasLines reg r1 warns h1))
    refine ⟨⟨r1, warns, h1, rfl, rfl⟩, rfl, ?_⟩
    intro n u hlook hmark hwl
    rw [anomaly_warnings_entries wl _ hnd2]
    exact entry_filter_unique wl _ hnd2 n u hlook hmark hwl

/-- Witness for C6: one concrete marker-free, non-whitelisted entry yields
exactly its single anomaly warning with its attribution id. -/
theorem claim_C6_anomaly_scan_witness :
    ([(("异常条目" : String), ([7] : List Int))].filter (fun w => decide (w.1 = "异常条目")))
      = [("异常条目", [7])] := by
  have hrun : process_universities [("异常条目", flaggedSample)] [] [] [] =
      some ([("异常条目", flaggedSample)], [], [("异常条目", [7])]) := by rfl
  exact ((claim_C6_anomaly_scan [("异常条目", flaggedSample)] [] [] [] (by decide)
      _ _ _ hrun).2.2) "异常条目" flaggedSample rfl (by decide) (by decide)

theorem catMap_nil {α β : Type} (f : α → List β) : catMap f [] = [] := rfl

theorem catMap_cons {α β : Type} (f : α → List β) (x : α) (xs : List α) :
    catMap f (x :: xs) = f x ++ catMap f xs := rfl

theorem presentAliasUnis_removeKey {reg : Registry} {a : String} {rest : List String}
    (hnotin : a ∉ rest) :
    presentAliasUnis (removeKey a reg) rest = presentAliasUnis reg rest := by
  apply filterMap_congr_mem
  intro b hb
  have hne : b ≠ a := by
    intro he
    rw [he] at hb
    exact hnotin hb
  exact alookup_removeKey_ne hne reg

theorem combine_from_eq {A B : University} (h : A.answers.length = B.answers.length) :
    A.combine_from B = some (combineU A B) := by
  rw [University.combine_from, if_pos h]
  rfl

theorem combineU_answers_length {A B : University} (h : A.answers.length = B.answers.length) :
    (combineU A B).answers.length = A.answers.length := by
  show (List.zipWith AnswerGroup.extend A.answers B.answers).length = A.answers.length
  rw [List.length_zipWith, h, Nat.min_self]

theorem combineU_binAt {A B : University} (h : A.answers.length = B.answers.length)
    {i : Nat} (hi : i < A.answers.length) :
    binAt (combineU A B) i = binAt A i ++ binAt B i := by
  show ((List.zipWith AnswerGroup.extend A.answers B.answers).getD i { answers := [] }).answers = _
  rw [zipWith_getD AnswerGroup.extend { answers := [] } A.answers B.answers i h hi]
  rfl

theorem mergeAliases_spec (primary : String) :
    ∀ (aliases : List String) (p : University) (reg : Registry),
      (dictKeys reg).Nodup → aliases.Nodup → primary ∉ aliases →
      (∀ u ∈ presentAliasUnis reg aliases, u.answers.length = p.answers.length) →
      ∃ p2 reg2, mergeAliases primary p reg aliases = some (p2, reg2) ∧
        p2.credits = p.credits ++ catMap University.credits (presentAliasUnis reg aliases) ∧
        p2.additional_answers = p.additional_answers ++
          catMap University.additional_answers (presentAliasUnis reg aliases) ∧
        p2.answers.length = p.answers.length ∧
        (∀ i, i < p.answers.length →
          binAt p2 i = binAt p i ++
            catMap (fun u => binAt u i) (presentAliasUnis reg aliases)) ∧
        (dictKeys reg2).Nodup ∧
        (∀ a ∈ aliases, alookup a reg2 = none) ∧
        (∀ k, k ∉ aliases → alookup k reg2 = alookup k reg) := by
  intro aliases
  induction aliases with
  | nil =>
    intro p reg hnd ha hpa hlen
    refine ⟨p, reg, by rw [mergeAliases], ?_, ?_, rfl, ?_, hnd, ?_, ?_⟩
    · show p.credits = p.credits ++ catMap University.credits []
      rw [catMap_nil, List.append_nil]
    · show p.additional_answers = p.additional_answers ++
        catMap University.additional_answers []
      rw [catMap_nil, List.append_nil]
    · intro i hi
      show binAt p i = binAt p i ++ catMap (fun u => binAt u i) []
      rw [catMap_nil, List.append_nil]
    · intro b hb
      cases hb
    · intro k hk
      rfl
  | cons a rest ih =>
    intro p reg hnd ha hpa hlen
    rw [List.nodup_cons] at ha
    have hane : a ≠ primary := fun he => hpa (by rw [← he]; exact List.mem_cons_self a rest)
    have hpa2 : primary ∉ rest := fun hm => hpa (List.mem_cons_of_mem a hm)
    cases hu : alookup a reg with
    | none =>
      have hpres : presentAliasUnis reg (a :: rest) = presentAliasUnis reg rest := by
        show List.filterMap _ (a :: rest) = _
        rw [List.filterMap_cons, hu]
        rfl
      obtain ⟨p2, reg2, hmerge, hcred, hadd, hlen2, hbins, hnd2, hnone, hframe⟩ :=
        ih p reg hnd ha.2 hpa2 (fun u hu2 => hlen u (by rw [hpres]; exact hu2))
      refine ⟨p2, reg2, ?_, ?_, ?_, hlen2, ?_, hnd2, ?_, ?_⟩
      · rw [mergeAliases, hu]
        exact hmerge
      · rw [hpres]
        exact hcred
      · rw [hpres]
        exact hadd
      · intro i hi
        rw [hpres]
        exact hbins i hi
      · intro b hb
        rcases List.mem_cons.mp hb with h1 | h2
        · rw [h1, hframe a ha.1, hu]
        · exact hnone b h2
      · intro k hk
        exact hframe k (fun hm => hk (List.mem_cons_of_mem a hm))
    | some u =>
      have hulen : u.answers.length = p.answers.length :=
        hlen u (List.mem_filterMap.mpr ⟨a, List.mem_cons_self a rest, hu⟩)
      have hconsp : presentAliasUnis reg (a :: rest) = u :: presentAliasUnis reg rest := by
        show List.filterMap _ (a :: rest) = _
        rw [List.filterMap_cons, hu]
        rfl
      have hcomb := combine_from_eq (A := p) (B := u) hulen.symm
      have hnd3 : (dictKeys (removeKey a reg)).Nodup :=
        hnd.sublist (dictKeys_removeKey_sublist a reg)
      have hpresrem : presentAliasUnis (removeKey a reg) rest = presentAliasUnis reg rest :=
        presentAliasUnis_removeKey ha.1
      have hpclen : (combineU p u).answers.length = p.answers.length :=
        combineU_answers_length hulen.symm
      have hlenIH : ∀ u2 ∈ presentAliasUnis (removeKey a reg) rest,
          u2.answers.length = (combineU p u).answers.length := by
        intro u2 hm
        rw [hpresrem] at hm
        rw [hpclen]
        exact hlen u2 (by rw [hconsp]; exact List.mem_cons_of_mem u hm)
      obtain ⟨p2, reg2, hmerge, hcred, hadd, hlen2, hbins, hnd2, hnone, hframe⟩ :=
        ih (combineU p u) (removeKey a reg) hnd3 ha.2 hpa2 hlenIH
      refine ⟨p2, reg2, ?_, ?_, ?_, ?_, ?_, hnd2, ?_, ?_⟩
      · rw [mergeAliases, hu]
        show (match p.combine_from (if a = primary then p else u) with
          | none => none
          | some p2a => mergeAliases primary p2a (removeKey a reg) rest) = some (p2, reg2)
        rw [if_neg hane, hcomb]
        exact hmerge
      · rw [hconsp, catMap_cons, hcred, hpresrem]
        show (p.credits ++ u.credits) ++ _ = _
        rw [List.append_assoc]
      · rw [hconsp, catMap_cons, hadd, hpresrem]
        show (p.additional_answers ++ u.additional_answers) ++ _ = _
        rw [List.append_assoc]
      · rw [hlen2]
        exact hpclen
      · intro i hi
        have hi2 : i < (combineU p u).answers.length := by
          rw [hpclen]
          exact hi
        rw [hconsp, catMap_cons, hbins i hi2, hpresrem,
          combineU_binAt hulen.symm hi, List.append_assoc]
      · intro b hb
        rcases List.mem_cons.mp hb with h1 | h2
        · rw [h1, hframe a ha.1]
          exact alookup_removeKey_self a reg hnd
        · exact hnone b h2
      · intro k hk
        have hka : k ≠ a := fun he => hk (by rw [he]; exact List.mem_cons_self a rest)
        rw [hframe k (fun hm => hk (List.mem_cons_of_mem a hm))]
        exact alookup_removeKey_ne hka reg

/-- C5: one alias line.  If the primary name is absent, a warning is
emitted and the registry is returned unchanged.  Otherwise every alias
present in the registry is merged into the primary in declared order and
its key removed, so afterwards the primary's aggregate holds its original
content followed by each merged alias's content in declared alias order
(per answer bin, supplementary list and attribution list), merged aliases
are gone from the registry, and all other entries are untouched. -/
theorem claim_C5_alias_merge (reg : Registry) (primary : String) (aliases : List String)
    (hnd : (dictKeys reg).Nodup) (ha : aliases.Nodup) (hpa : primary ∉ aliases) :
    (alookup primary reg = none →
      process_alias_line reg primary aliases =
        some (reg, ["[warn] alias primary missing: " ++ primary])) ∧
    ∀ p, alookup primary reg = some p →
      (∀ u ∈ presentAliasUnis reg aliases, u.answers.length = p.answers.length) →
      ∃ reg2 p2, process_alias_line reg primary aliases = some (reg2, []) ∧
        alookup primary reg2 = some p2 ∧
        p2.credits = p.credits ++ catMap University.credits (presentAliasUnis reg aliases) ∧
        p2.additional_answers = p.additional_answers ++
          catMap University.additional_answers (presentAliasUnis reg aliases) ∧
        (∀ i, i < p.answers.length →
          binAt p2 i = binAt p i ++
            catMap (fun u => binAt u i) (presentAliasUnis reg aliases)) ∧
        (∀ a ∈ aliases, alookup a reg2 = none) ∧
        (∀ k, k ∉ aliases → k ≠ primary → alookup k reg2 = alookup k reg) := by
  constructor
  · intro h
    unfold process_alias_line
    rw [h]
  · intro p hp hlen
    obtain ⟨p2, reg2m, hmerge, hcred, hadd, hlen2, hbins, hnd2, hnone, hframe⟩ :=
      mergeAliases_spec primary aliases p reg hnd ha hpa hlen
    refine ⟨setKey primary p2 reg2m, p2, ?_, ?_, hcred, hadd, hbins, ?_, ?_⟩
    · unfold process_alias_line
      rw [hp]
      show (match mergeAliases primary p reg aliases with
        | none => none
        | some (p2a, reg2a) => some (setKey primary p2a reg2a, [])) = _
      rw [hmerge]
    · apply alookup_setKey_self
      apply alookup_mem_keys (v := p)
      rw [hframe primary hpa]
      exact hp
    · intro b hb
      have hbp : b ≠ primary := fun he => hpa (by rw [← he]; exact hb)
      rw [alookup_setKey_ne hbp]
      exact hnone b hb
    · intro k hk hkp
      rw [alookup_setKey_ne hkp]
      exact hframe k hk

/-- Witness for C5: a concrete line whose primary is absent from the
registry is skipped with a warning and leaves the registry unchanged. -/
theorem claim_C5_alias_merge_witness :
    process_alias_line [("乙大学", University.new)] "甲大学" ["乙大学"] =
      some ([("乙大学", University.new)], ["[warn] alias primary missing: 甲大学"]) :=
  (claim_C5_alias_merge [("乙大学", University.new)] "甲大学" ["乙大学"]
    (by decide) (by decide) (by decide)).1 rfl

theorem mem_of_getLast?_eq {l : List String} {a : String} (h : l.getLast? = some a) :
    a ∈ l := by
  rcases List.mem_getLast?_eq_getLast h with ⟨hne, he⟩
  rw [he]
  exact List.getLast_mem hne

theorem splitSeps_no_sep : ∀ (l : List Char), ∀ g ∈ splitSeps l, ∀ c ∈ g,
    isSepChar c = false := by
  intro l
  induction l with
  | nil =>
    intro g hg c hc
    simp [splitSeps] at hg
    rw [hg] at hc
    cases hc
  | cons a rest ih =>
    intro g hg c hc
    rw [splitSeps] at hg
    cases hsp : splitSeps rest with
    | nil =>
      rw [hsp] at hg
      simp at hg
      rw [hg] at hc
      cases hc
    | cons g0 gs =>
      rw [hsp] at hg
      replace hg : g ∈ (if isSepChar a = true then [] :: g0 :: gs else (a :: g0) :: gs) := hg
      cases hsep : isSepChar a with
      | true =>
        rw [if_pos hsep] at hg
        rcases List.mem_cons.mp hg with h1 | h2
        · rw [h1] at hc
          cases hc
        · exact ih g (by rw [hsp]; exact h2) c hc
      | false =>
        rw [if_neg (by rw [hsep]; exact Bool.false_ne_true)] at hg
        rcases List.mem_cons.mp hg with h1 | h2
        · rw [h1] at hc
          rcases List.mem_cons.mp hc with hc1 | hc2
          · rw [hc1]
            exact hsep
          · exact ih g0 (by rw [hsp]; exact List.mem_cons_self _ _) c hc2
        · exact ih g (by rw [hsp]; exact List.mem_cons_of_mem _ h2) c hc

theorem pathSegs_no_sep (s : String) : ∀ seg ∈ pathSegs s, ∀ c ∈ seg.toList,
    isSepChar c = false := by
  intro seg hseg c hc
  unfold pathSegs at hseg
  rcases List.mem_map.mp hseg with ⟨g, hg, he⟩
  have hg2 := (List.mem_filter.mp hg).1
  rw [← he] at hc
  exact splitSeps_no_sep s.toList g hg2 c hc

theorem const_seg_no_sep : ∀ seg ∈ (siteDirSegs ++
    ["content", "docs", "archived", "universities"]), ∀ c ∈ seg.toList,
    isSepChar c = false := by decide

theorem generate_markdown_path_no_sep (province name : String) (archived : Bool) :
    ∀ seg ∈ generate_markdown_path province name archived, ∀ c ∈ seg.toList,
      isSepChar c = false := by
  intro seg hseg
  have hcases : seg ∈ (siteDirSegs ++ ["content", "docs", "archived", "universities"]) ∨
      seg ∈ pathSegs province ∨ seg ∈ pathSegs (name ++ ".md") := by
    unfold generate_markdown_path at hseg
    simp [List.mem_append, siteDirSegs] at hseg
    simp [List.mem_append, siteDirSegs]
    cases archived <;> simp at hseg <;> tauto
  rcases hcases with h | h | h
  · exact const_seg_no_sep seg h
  · exact pathSegs_no_sep province seg h
  · exact pathSegs_no_sep _ seg h

theorem stemChars_subset (seg : List Char) : ∀ c ∈ stemChars seg, c ∈ seg := by
  intro c hc
  unfold stemChars at hc
  split at hc
  · exact hc
  · split at hc
    · exact hc
    · split at hc
      · exact hc
      · exact List.take_subset _ seg hc

theorem map_ne_self_exists {l : List Char} {f : Char → Char} (h : l.map f ≠ l) :
    ∃ c ∈ l, f c ≠ c := by
  induction l with
  | nil => exact absurd rfl h
  | cons a rest ih =>
    by_cases hfa : f a = a
    · have h2 : rest.map f ≠ rest := by
        intro he
        exact h (by rw [List.map_cons, hfa, he])
      rcases ih h2 with ⟨c, hc, hne⟩
      exact ⟨c, List.mem_cons_of_mem a hc, hne⟩
    · exact ⟨a, List.mem_cons_self a rest, hfa⟩

theorem resolve_target_no_sep (province name : String) (archived : Bool) :
    ∀ s ∈ (resolve_target province name archived).1, ∀ c ∈ s.toList,
      isSepChar c = false := by
  intro s hs c hc
  unfold resolve_target at hs
  cases hlast : (generate_markdown_path province name archived).getLast? with
  | none =>
    rw [hlast] at hs
    exact generate_markdown_path_no_sep province name archived s hs c hc
  | some seg =>
    rw [hlast] at hs
    replace hs : s ∈ (if (sanitize_filename (String.mk (stemChars seg.toList))).2 = true then
        ((generate_markdown_path province name archived).dropLast ++
          [(sanitize_filename (String.mk (stemChars seg.toList))).1 ++
            String.mk (suffixChars seg.toList)], true)
      else (generate_markdown_path province name archived, false)).1 := hs
    by_cases hf : (sanitize_filename (String.mk (stemChars seg.toList))).2 = true
    · rw [if_pos hf] at hs
      replace hs : s ∈ (generate_markdown_path province name archived).dropLast ++
          [(sanitize_filename (String.mk (stemChars seg.toList))).1 ++
            String.mk (suffixChars seg.toList)] := hs
      rcases List.mem_append.mp hs with h1 | h2
      · exact generate_markdown_path_no_sep province name archived s
          ((List.dropLast_sublist _).subset h1) c hc
      · simp at h2
        rw [h2] at hc
        have hsegns := generate_markdown_path_no_sep province name archived seg
          (mem_of_getLast?_eq hlast)
        replace hc : c ∈ ((sanitize_filename (String.mk (stemChars seg.toList))).1).toList
            ++ (String.mk (suffixChars seg.toList)).toList := by
          rw [show ∀ x y : String, (x ++ y).toList = x.toList ++ y.toList from
            fun x y => String.data_append x y] at hc
          exact hc
        rcases List.mem_append.mp hc with hcl | hcr
        · replace hcl : c ∈ (stemChars seg.toList).map
              (fun c0 => if c0 ∈ illegalFileChars then '_' else c0) := hcl
          rcases List.mem_map.mp hcl with ⟨c0, hc0, he⟩
          by_cases hil : c0 ∈ illegalFileChars
          · rw [← he, if_pos hil]
            rfl
          · rw [← he, if_neg hil]
            exact hsegns c0 (stemChars_subset seg.toList c0 hc0)
        · replace hcr : c ∈ suffixChars seg.toList := hcr
          exact hsegns c (List.drop_subset _ _ hcr)
    · rw [if_neg hf] at hs
      exact generate_markdown_path_no_sep province name archived s hs c hc

theorem resolve_flag_cause (province name : String) (archived : Bool) :
    ∀ seg, (generate_markdown_path province name archived).getLast? = some seg →
      (resolve_target province name archived).2 = true →
      ∃ c ∈ stemChars seg.toList, c ∈ illegalFileChars ∧ isSepChar c = false := by
  intro seg hlast hflag
  unfold resolve_target at hflag
  rw [hlast] at hflag
  by_cases hf : (sanitize_filename (String.mk (stemChars seg.toList))).2 = true
  · have hne : String.mk ((stemChars seg.toList).map
        (fun c0 => if c0 ∈ illegalFileChars then '_' else c0))
        ≠ String.mk (stemChars seg.toList) := of_decide_eq_true hf
    have hne2 : (stemChars seg.toList).map
        (fun c0 => if c0 ∈ illegalFileChars then '_' else c0) ≠ stemChars seg.toList := by
      intro he
      exact hne (by rw [he])
    rcases map_ne_self_exists hne2 with ⟨c, hc, hcne⟩
    by_cases hil : c ∈ illegalFileChars
    · refine ⟨c, hc, hil, ?_⟩
      exact generate_markdown_path_no_sep province name archived seg
        (mem_of_getLast?_eq hlast) c (stemChars_subset seg.toList c hc)
    · rw [if_neg hil] at hcne
      exact absurd rfl hcne
  · exfalso
    replace hflag : (if (sanitize_filename (String.mk (stemChars seg.toList))).2 = true then
        ((generate_markdown_path province name archived).dropLast ++
          [(sanitize_filename (String.mk (stemChars seg.toList))).1 ++
            String.mk (suffixChars seg.toList)], true)
      else (generate_markdown_path province name archived, false)).2 = true := hflag
    rw [if_neg hf] at hflag
    exact Bool.false_ne_true hflag

/-- Counterexample to C4 as stated: for the name `a/b` (which contains
`/`) the render pipeline does NOT replace the `/` with `_` in the output
path's final segment and does NOT log a collision.  pathlib treats the
`/` as a path separator: the error flag is `false` and the path ends in
the components `..., "a", "b.md"` instead of `..., "a_b.md"`. -/
theorem claim_C4_counterexample :
    (resolve_target "其他" "a/b" false).2 = false ∧
    (resolve_target "其他" "a/b" false).1 =
      ["D:", "Project", "questionnaire-report-theme", "content", "docs",
       "universities", "其他", "a", "b.md"] := by
  constructor
  · rfl
  · rfl

/-- C4 amended: a `/` in an entity name acts as a path separator, so no
component of the resolved output path ever contains a separator (the `/`
is consumed, never replaced by `_`); the collision flag fires only when
the stem of the final generated component contains an illegal
non-separator character; and the slug is unaffected: it is the external
slugifier applied to the name with the characters `/ > | : &` removed
(shown on a fresh map, where the base slug is returned as is). -/
theorem claim_C4_amended (f : String → String) (province name : String) (archived : Bool) :
    (∀ s ∈ (resolve_target province name archived).1, ∀ c ∈ s.toList,
      isSepChar c = false) ∧
    (∀ seg, (generate_markdown_path province name archived).getLast? = some seg →
      (resolve_target province name archived).2 = true →
      ∃ c ∈ stemChars seg.toList, c ∈ illegalFileChars ∧ isSepChar c = false) ∧
    (∀ c ∈ (stripFilenameChars name).toList, c ≠ '/') ∧
    (FilenameMap.getItem f FilenameMap.empty name).1 = f (stripFilenameChars name) := by
  refine ⟨resolve_target_no_sep province name archived,
    resolve_flag_cause province name archived, ?_, ?_⟩
  · intro c hc
    replace hc : c ∈ name.toList.filter (fun c2 => decide (c2 ∉ ['/', '>', '|', ':', '&'])) := hc
    have h2 := of_decide_eq_true (List.mem_filter.mp hc).2
    intro he
    exact h2 (by rw [he]; exact List.mem_cons_self _ _)
  · show freshSlug (f (stripFilenameChars name)) [] = f (stripFilenameChars name)
    show freshAux (f (stripFilenameChars name)) [] 1 1 = f (stripFilenameChars name)
    rw [freshAux, if_neg (List.not_mem_nil _), slugCandidate, if_pos rfl]

/-- Witness for the amended C4: a concrete name with an illegal
non-separator character (`:`) does trip the collision flag, caused by a
character of the final component's stem. -/
theorem claim_C4_amended_witness :
    ∃ c ∈ stemChars ("a:b.md" : String).toList,
      c ∈ illegalFileChars ∧ isSepChar c = false :=
  (claim_C4_amended (fun s => s) "其他" "a:b" false).2.1 "a:b.md" rfl rfl

/-- C10: a row is loaded into the archived registry exactly when its
submission timestamp is strictly earlier than the archive cutoff
2023-01-01 00:00:00; the comparison is irreflexive, so a row whose
timestamp equals the cutoff is loaded into the active registry. -/
theorem claim_C10_archive_partition (zhconvert : String → String)
    (acc : Registry × Registry) (row : Row) :
    (dtLt row.submit_time archive_cut = true →
      load_rows_step zhconvert acc row =
        (load_to_universities zhconvert acc.2 row).map (fun r => (acc.1, r))) ∧
    (dtLt row.submit_time archive_cut = false →
      load_rows_step zhconvert acc row =
        (load_to_universities zhconvert acc.1 row).map (fun r => (r, acc.2))) ∧
    (∀ t : PyDateTime, dtLt t t = false) ∧
    (row.submit_time = archive_cut →
      load_rows_step zhconvert acc row =
        (load_to_universities zhconvert acc.1 row).map (fun r => (r, acc.2))) := by
  have hirr : ∀ t : PyDateTime, dtLt t t = false := by
    intro t
    unfold dtLt
    simp
  refine ⟨?_, ?_, hirr, ?_⟩
  · intro h
    unfold load_rows_step
    rw [if_pos h]
    cases hl : load_to_universities zhconvert acc.2 row with
    | none => rfl
    | some r => rfl
  · intro h
    unfold load_rows_step
    rw [if_neg (by rw [h]; exact Bool.false_ne_true)]
    cases hl : load_to_universities zhconvert acc.1 row with
    | none => rfl
    | some r => rfl
  · intro he
    unfold load_rows_step
    rw [if_neg (by rw [he, hirr archive_cut]; exact Bool.false_ne_true)]
    cases hl : load_to_universities zhconvert acc.1 row with
    | none => rfl
    | some r => rfl

/-- Witness for C10: a concrete row stamped exactly at the cutoff goes to
the active registry. -/
theorem claim_C10_archive_partition_witness :
    load_rows_step (fun s => s) ([], [])
      { aid := 1, anonymous := 1, email := "", show_email_one := false,
        name := "某大学", answers := [], additional := "", submit_time := archive_cut } =
      (load_to_universities (fun s => s) []
        { aid := 1, anonymous := 1, email := "", show_email_one := false,
          name := "某大学", answers := [], additional := "", submit_time := archive_cut }).map
        (fun r => (r, [])) :=
  (claim_C10_archive_partition (fun s => s) ([], []) _).2.2.2 rfl
